import Mathlib

/-!
# Verification of the footprint-evaluation spec against rgt/HINT/evaluation.py

This file shallowly embeds the curve-computation core of
src/rgt/HINT/evaluation.py (class Evaluation): the ROC / precision-recall
walks, rate normalization, truncated AUC with min-max standardization, the
boosted-overlap score fusion of chip_evaluate's SEG branch, and the two
curve-downsampling policies.  Python floats are modelled as rationals, and
Python exceptions (ZeroDivisionError, sklearn/ValueError) as an Except error
type.  External collaborators from rgt.GenomicRegionSet (intersect, subtract,
sort_score) are not in the sources and are modelled from the spec where noted.
-/

/-- A genomic region as evaluation.py consumes it: coordinates, a name whose
last colon-separated token encodes the class label, and an integer score held
in the data field (the code always reads it through int(region.data)). -/
structure GenomicRegion where
  chrom : String
  start : Int
  stop : Int
  name : String
  data : Int
deriving DecidableEq, Repr

/-- The runtime errors the embedded code can raise: Python's
ZeroDivisionError, the ValueError raised by sklearn.metrics.auc (fewer than
2 points, or x neither increasing nor decreasing) and by max()/min() on an
empty sequence, and the named FatalInput error that the spec demands (the
code never raises it; it is included so that claims about it are statable). -/
inductive EvalError where
  | zeroDivision
  | valueError
  | fatalInput
deriving DecidableEq, Repr

/-- Last colon-separated token of a character list: the token accumulated in
cur (kept reversed) is reset at every colon, so the final accumulated token is
the segment after the last colon — the semantics of Python's split(":")[-1]. -/
def lastTokAux (cur : List Char) : List Char → List Char
  | [] => cur.reverse
  | c :: t => if c = ':' then lastTokAux [] t else lastTokAux (c :: cur) t

/-- Label rule of evaluation.py lines 187 and 230:
str(region.name).split(":")[-1] == "Y". -/
def isY (r : GenomicRegion) : Bool :=
  lastTokAux [] r.name.data == ['Y']

/-- Number of positive-labeled regions in a list. -/
def countPos (l : List GenomicRegion) : Nat :=
  l.countP (fun r => isY r)

/-- Number of negative-labeled regions in a list. -/
def countNeg (l : List GenomicRegion) : Nat :=
  l.countP (fun r => !isY r)

/-- scipy.integrate.trapz y x: the trapezoidal integral of y over x,
sum over consecutive pairs of (x1 - x0) * (y0 + y1) / 2. -/
def trapz : List ℚ → List ℚ → ℚ
  | y0 :: y1 :: ys, x0 :: x1 :: xs => (x1 - x0) * (y0 + y1) / 2 + trapz (y1 :: ys) (x1 :: xs)
  | _, _ => 0

/-- Boolean test that a list of rationals is non-decreasing. -/
def nondecreasing : List ℚ → Bool
  | [] => true
  | [_] => true
  | a :: b :: t => a ≤ b && nondecreasing (b :: t)

/-- Boolean test that a list of rationals is non-increasing. -/
def nonincreasing : List ℚ → Bool
  | [] => true
  | [_] => true
  | a :: b :: t => b ≤ a && nonincreasing (b :: t)

/-- sklearn.metrics.auc x y: raises ValueError if fewer than 2 points;
integrates y over x trapezoidally, with direction -1 when x is decreasing,
and raises ValueError when x is neither non-decreasing nor non-increasing. -/
def metricsAuc (x y : List ℚ) : Except EvalError ℚ :=
  if x.length < 2 then .error .valueError
  else if nondecreasing x then .ok (trapz y x)
  else if nonincreasing x then .ok (-(trapz y x))
  else .error .valueError

/-- Evaluation.standardize (lines 246-249): min-max rescale of a vector.
Python's max()/min() raise ValueError on an empty sequence, and the
comprehension raises ZeroDivisionError as soon as maxN equals minN. -/
def standardize (v : List ℚ) : Except EvalError (List ℚ) :=
  match v with
  | [] => .error .valueError
  | a :: t =>
    let maxN := t.foldl max a
    let minN := t.foldl min a
    if maxN = minN then .error .zeroDivision
    else .ok (v.map (fun e => (e - minN) / (maxN - minN)))

/-- Accumulated state of the ROC walk: final negative and positive counters
and the x / y count sequences appended after the initial zeros. -/
structure WalkOut where
  cx : Nat
  cy : Nat
  xs : List Nat
  ys : List Nat
deriving DecidableEq, Repr

/-- The walk of Evaluation.roc_curve lines 182-194, started at counters
(cx, cy): a positive region increments cy and appends (cx, new cy); a
negative region increments cx and appends (new cx, cy). -/
def rocWalk : Nat → Nat → List GenomicRegion → WalkOut
  | cx, cy, [] => ⟨cx, cy, [], []⟩
  | cx, cy, r :: l =>
    if isY r then
      let w := rocWalk cx (cy + 1) l
      ⟨w.cx, w.cy, cx :: w.xs, (cy + 1) :: w.ys⟩
    else
      let w := rocWalk (cx + 1) cy l
      ⟨w.cx, w.cy, (cx + 1) :: w.xs, cy :: w.ys⟩

/-- Lines 182-196 of Evaluation.roc_curve: the walk starting from sequences
[0], [0], then normalization of every x by 1/count_x and every y by
1/count_y.  A zero final counter is Python's ZeroDivisionError from
1.0/count_x (resp. 1.0/count_y). -/
def rocPoints (regions : List GenomicRegion) : Except EvalError (List ℚ × List ℚ) :=
  let w := rocWalk 0 0 regions
  if w.cx = 0 then .error .zeroDivision
  else if w.cy = 0 then .error .zeroDivision
  else .ok ((0 :: w.xs).map (fun (e : Nat) => (e : ℚ) * (1 / (w.cx : ℚ))),
            (0 :: w.ys).map (fun (e : Nat) => (e : ℚ) * (1 / (w.cy : ℚ))))

/-- Lines 201-220 of Evaluation.roc_curve, for one cutoff c: scan the
normalized x-sequence, stopping at the first value above c (takeWhile),
take the matching y-values, standardize the x-window unconditionally, and
hand both to sklearn's auc. -/
def truncAuc (x y : List ℚ) (c : ℚ) : Except EvalError ℚ :=
  let xs := x.takeWhile (fun e => e ≤ c)
  let ys := y.take xs.length
  match standardize xs with
  | .error e => .error e
  | .ok s => metricsAuc s ys

/-- Result record of Evaluation.roc_curve: the normalized sequences and the
full, 10%-truncated and 1%-truncated AUC values. -/
structure RocResult where
  fpr : List ℚ
  tpr : List ℚ
  roc_auc : ℚ
  roc_auc_1 : ℚ
  roc_auc_2 : ℚ
deriving DecidableEq, Repr

/-- Evaluation.roc_curve (lines 181-222): points walk and normalization,
full AUC through sklearn, then the 0.1 and 0.01 truncated AUC, every raised
exception propagating to the caller in program order. -/
def roc_curve (regions : List GenomicRegion) : Except EvalError RocResult :=
  match rocPoints regions with
  | .error e => .error e
  | .ok (fpr, tpr) =>
    match metricsAuc fpr tpr with
    | .error e => .error e
    | .ok auc =>
      match truncAuc fpr tpr (1 / 10) with
      | .error e => .error e
      | .ok auc1 =>
        match truncAuc fpr tpr (1 / 100) with
        | .error e => .error e
        | .ok auc2 => .ok ⟨fpr, tpr, auc, auc1, auc2⟩

/-- Accumulated state of the precision-recall walk: final counters, the
precision values appended during the walk, and the raw recall counts. -/
structure PrWalkOut where
  cx : Nat
  cy : Nat
  ps : List ℚ
  rcs : List Nat
deriving DecidableEq, Repr

/-- The walk of Evaluation.precision_recall_curve lines 229-237, started at
counters (cx, cy): each region first bumps its counter, then appends
precision float(count_y) / (count_x + count_y) and the raw recall count. -/
def prcWalk : Nat → Nat → List GenomicRegion → PrWalkOut
  | cx, cy, [] => ⟨cx, cy, [], []⟩
  | cx, cy, r :: l =>
    if isY r then
      let w := prcWalk cx (cy + 1) l
      ⟨w.cx, w.cy, ((cy + 1 : Nat) : ℚ) / ((cx : ℚ) + ((cy + 1 : Nat) : ℚ)) :: w.ps,
        (cy + 1) :: w.rcs⟩
    else
      let w := prcWalk (cx + 1) cy l
      ⟨w.cx, w.cy, ((cy : Nat) : ℚ) / (((cx + 1 : Nat) : ℚ) + (cy : ℚ)) :: w.ps,
        cy :: w.rcs⟩

/-- Evaluation.precision_recall_curve (lines 224-244): walk from sequences
[0.0], [0.0]; normalize recall by 1/count_y (Python's ZeroDivisionError when
count_y is zero); append the synthetic terminal precision 0.0 and recall
1.0; the AUC is the absolute trapezoidal integral of recall over precision. -/
def precision_recall_curve (regions : List GenomicRegion) :
    Except EvalError (List ℚ × List ℚ × ℚ) :=
  let w := prcWalk 0 0 regions
  if w.cy = 0 then .error .zeroDivision
  else
    let recl := ((0 :: w.rcs).map (fun (e : Nat) => (e : ℚ) * (1 / (w.cy : ℚ)))) ++ [1]
    let prec := (0 :: w.ps) ++ [0]
    .ok (recl, prec, |trapz recl prec|)

deriving instance DecidableEq for Except

/-- Overlap of two regions on the same chromosome, open-interval style
(any shared base). Modelled from the spec: the external interval arithmetic
only needs to decide whether a ground-truth interval has any overlap with a
predicted interval. -/
def overlaps (a b : GenomicRegion) : Bool :=
  a.chrom == b.chrom && a.start < b.stop && b.start < a.stop

/-- True when region r overlaps at least one region of fps. -/
def isOverlapped (r : GenomicRegion) (fps : List GenomicRegion) : Bool :=
  fps.any (overlaps r)

/-- Modelled from the spec: GenomicRegionSet.intersect with
OverlapType.ORIGINAL (not under src/) returns the regions of the first set
that overlap at least one region of the second, each one exactly once. -/
def intersectOriginal (A B : List GenomicRegion) : List GenomicRegion :=
  A.filter (fun a => isOverlapped a B)

/-- Modelled from the spec: GenomicRegionSet.subtract with whole_region=True
(not under src/) returns the regions of the first set that do not overlap
any region of the second. -/
def subtractWhole (A B : List GenomicRegion) : List GenomicRegion :=
  A.filter (fun a => !isOverlapped a B)

/-- Lines 75-80 of chip_evaluate: fold a running maximum over the scores
starting from the sentinel -99999999, then add one. -/
def maxScorePlusOne (regions : List GenomicRegion) : Int :=
  regions.foldl (fun m r => if r.data > m then r.data else m) (-99999999) + 1

/-- Lines 89-103 of chip_evaluate (SEG branch): every ground-truth region
overlapping a predicted footprint is re-emitted with its score increased by
max_score; the non-overlapping ones keep their score; the union is sorted by
score descending (sort_score is not under src/ and is modelled from the spec
as a merge sort on the score field, descending). -/
def chip_fuse_SEG (mpbs fps : List GenomicRegion) : List GenomicRegion :=
  let M := maxScorePlusOne mpbs
  ((intersectOriginal mpbs fps).map (fun r => ({ r with data := r.data + M } : GenomicRegion))
      ++ subtractWhole mpbs fps).mergeSort (fun a b => decide (b.data ≤ a.data))

/-- numpy.linspace a b m: m evenly spaced samples from a to b inclusive
(numpy returns [a] for m = 1 and the empty array for m = 0). -/
def linspace (a b : ℚ) (m : Nat) : List ℚ :=
  if m = 0 then []
  else if m = 1 then [a]
  else (List.range m).map (fun (j : Nat) => a + (b - a) * (j : ℚ) / ((m : ℚ) - 1))

/-- int(math.ceil(e)) used as a non-negative list index. -/
def ceilIdx (e : ℚ) : Nat := (Int.ceil e).toNat

/-- Per-input body of Evaluation.optimize_roc_points (lines 254-266); the
loop applies it independently to each input index i.  The result is the pair
of output sequences together with the post-call state of the caller's pair,
which this function leaves untouched (the source only reads fpr[i][j]).  A
sequence longer than max_points is index-sampled at the ceilings of
max_points evenly spaced positions across [0, length-1]. -/
def optimize_roc_points (fpr tpr : List ℚ) (max_points : Nat) :
    (List ℚ × List ℚ) × (List ℚ × List ℚ) :=
  if max_points < fpr.length then
    let idxs := (linspace 0 ((fpr.length : ℚ) - 1) max_points).map ceilIdx
    ((idxs.map (fun j => fpr.getD j 0), idxs.map (fun j => tpr.getD j 0)), (fpr, tpr))
  else ((fpr, tpr), (fpr, tpr))

/-- Per-input body of Evaluation.optimize_pr_points (lines 274-289); the
loop applies it independently to each input index i.  The Python pops the
first min(max_points, len(recall)) elements off both caller-supplied lists
into the output (a destructive side effect), then, on the remainders left in
the caller's lists, either index-samples max_points more points (when more
than max_points remain) or appends the whole remainder.  The result is the
pair of output sequences together with the post-call state of the caller's
pair.  The embedding assumes the precision list is at least as long as the
recall list, which every call site guarantees (both walks emit equal-length
sequences). -/
def optimize_pr_points (recl prec : List ℚ) (max_points : Nat) :
    (List ℚ × List ℚ) × (List ℚ × List ℚ) :=
  let k := min max_points recl.length
  let dataR := recl.take k
  let dataP := prec.take k
  let restR := recl.drop k
  let restP := prec.drop k
  if max_points < restR.length then
    let idxs := (linspace 0 ((restR.length : ℚ) - 1) max_points).map ceilIdx
    ((dataR ++ idxs.map (fun j => restR.getD j 0), dataP ++ idxs.map (fun j => restP.getD j 0)),
      (restR, restP))
  else ((dataR ++ restR, dataP ++ restP), (restR, restP))

/-- The truncated-AUC computation as the spec sentence describes it: take the
longest prefix of the x-sequence with all values at most c, and min-max
standardize it only when it has fewer than 2 distinct values, before
integrating the matching y-values over it. -/
def truncAucSpecVersion (x y : List ℚ) (c : ℚ) : Except EvalError ℚ :=
  let xs := x.takeWhile (fun e => e ≤ c)
  let ys := y.take xs.length
  if xs.dedup.length < 2 then
    match standardize xs with
    | .error e => .error e
    | .ok s => metricsAuc s ys
  else metricsAuc xs ys

/-- True exactly on the ok constructor. -/
def isOkE {ε α : Type} : Except ε α → Bool
  | .ok _ => true
  | .error _ => false

/-- Concrete positive-labeled region used in witnesses. -/
def posR : GenomicRegion := ⟨"chr1", 0, 10, "a:Y", 5⟩

/-- Concrete negative-labeled region used in witnesses. -/
def negR : GenomicRegion := ⟨"chr1", 20, 30, "b:N", 3⟩

/-- One positive followed by one hundred negatives: the smallest natural
shape on which roc_curve completes without a division-by-zero (the 1%
window needs a false-positive-rate step of at most 0.01). -/
def ex100 : List GenomicRegion := posR :: List.replicate 100 negR

/-- The final negative counter of the walk is the starting counter plus the
number of negative-labeled regions walked. -/
theorem rocWalk_cx (cx cy : Nat) (l : List GenomicRegion) :
    (rocWalk cx cy l).cx = cx + countNeg l := by
  induction l generalizing cx cy with
  | nil => simp [rocWalk, countNeg]
  | cons r t ih =>
    by_cases h : isY r <;>
      simp_arith [rocWalk, h, countNeg, List.countP_cons, ih]

/-- The final positive counter of the walk is the starting counter plus the
number of positive-labeled regions walked. -/
theorem rocWalk_cy (cx cy : Nat) (l : List GenomicRegion) :
    (rocWalk cx cy l).cy = cy + countPos l := by
  induction l generalizing cx cy with
  | nil => simp [rocWalk, countPos]
  | cons r t ih =>
    by_cases h : isY r <;>
      simp_arith [rocWalk, h, countPos, List.countP_cons, ih]

/-- The final positive counter of the precision-recall walk is the starting
counter plus the number of positive-labeled regions walked. -/
theorem prcWalk_cy (cx cy : Nat) (l : List GenomicRegion) :
    (prcWalk cx cy l).cy = cy + countPos l := by
  induction l generalizing cx cy with
  | nil => simp [prcWalk, countPos]
  | cons r t ih =>
    by_cases h : isY r <;>
      simp_arith [prcWalk, h, countPos, List.countP_cons, ih]

/-- A list splits, by length, into the part satisfying a predicate and the
part falsifying it. -/
theorem filter_length_partition {α : Type} (p : α → Bool) (l : List α) :
    (l.filter p).length + (l.filter (fun a => !p a)).length = l.length := by
  induction l with
  | nil => rfl
  | cons a t ih =>
    by_cases h : p a <;> simp [List.filter_cons, h] <;> omega

/-- C6: boosted-overlap fusion neither drops nor duplicates a ground-truth
interval: for every ground-truth and predicted-footprint collection, the
fused collection has exactly the ground-truth collection's cardinality
(with the intersect / subtract / sort_score collaborators modelled from
the spec as overlap filter, non-overlap filter, and a merge sort). -/
theorem chip_fuse_SEG_length (gt fp : List GenomicRegion) :
    (chip_fuse_SEG gt fp).length = gt.length := by
  unfold chip_fuse_SEG intersectOriginal subtractWhole
  rw [List.length_mergeSort, List.length_append, List.length_map]
  exact filter_length_partition _ gt

/-- C9: the pr_auc returned by precision_recall_curve is the absolute
trapezoidal integral taken with the recall sequence as the y-axis and the
precision sequence as the x-axis (trapz integrates its first argument over
its second). -/
theorem prc_auc_orientation (regions : List GenomicRegion) (recl prec : List ℚ) (a : ℚ)
    (h : precision_recall_curve regions = .ok (recl, prec, a)) :
    a = |trapz recl prec| := by
  unfold precision_recall_curve at h
  by_cases h0 : (prcWalk 0 0 regions).cy = 0
  · simp [h0] at h
  · simp [h0] at h
    obtain ⟨h1, h2, h3⟩ := h
    subst h1; subst h2; subst h3
    rfl

/-- Witness for C9 at the single-positive input. -/
theorem prc_auc_orientation_witness :
    ((1 : ℚ) / 2) = |trapz [0, 1, 1] [0, 1, 0]| :=
  prc_auc_orientation [posR] [0, 1, 1] [0, 1, 0] (1 / 2) (by with_unfolding_all decide)

/-- C10: PR-style downsampling destructively pops the first
min(max_points, length) elements off the caller's recall and precision
sequences, while ROC-style downsampling leaves its inputs unchanged; the
second component of each embedded function is the post-call state of the
caller's pair. -/
theorem optimize_points_frame (recl prec fpr tpr : List ℚ) (mp : Nat)
    (hlen : prec.length = recl.length) :
    (optimize_pr_points recl prec mp).2.1 = recl.drop (min mp recl.length) ∧
    (optimize_pr_points recl prec mp).2.2 = prec.drop (min mp prec.length) ∧
    (optimize_roc_points fpr tpr mp).2.1 = fpr ∧
    (optimize_roc_points fpr tpr mp).2.2 = tpr := by
  refine ⟨?_, ?_, ?_, ?_⟩
  · unfold optimize_pr_points; dsimp only; split <;> simp
  · unfold optimize_pr_points; dsimp only; split <;> simp [hlen]
  · unfold optimize_roc_points; split <;> simp
  · unfold optimize_roc_points; split <;> simp

/-- Witness for C10 at a concrete pair with budget one. -/
theorem optimize_points_frame_witness :
    (optimize_pr_points [5, 7] [5, 7] 1).2.1 = [5, (7 : ℚ)].drop (min 1 [5, (7 : ℚ)].length) ∧
    (optimize_pr_points [5, 7] [5, 7] 1).2.2 = [5, (7 : ℚ)].drop (min 1 [5, (7 : ℚ)].length) ∧
    (optimize_roc_points [5, 7] [5, 7] 1).2.1 = [5, (7 : ℚ)] ∧
    (optimize_roc_points [5, 7] [5, 7] 1).2.2 = [5, (7 : ℚ)] :=
  optimize_points_frame [5, 7] [5, 7] [5, 7] [5, 7] 1 rfl

/-- C2 counterexample: with a budget of 2 and a 4-point input pair, the
PR-style policy returns 4 points — more than max_points — because the
verbatim prefix and the untruncated tail are concatenated. -/
theorem optimize_pr_points_exceeds_budget :
    2 < ((optimize_pr_points [0, 1, 2, 3] [0, 1, 2, 3] 2).1.1).length := by
  with_unfolding_all decide

/-- The number of samples numpy.linspace returns is exactly its num
argument. -/
theorem linspace_length (a b : ℚ) (m : Nat) : (linspace a b m).length = m := by
  unfold linspace
  by_cases h0 : m = 0
  · simp [h0]
  · by_cases h1 : m = 1
    · simp [h0, h1]
    · rw [if_neg h0, if_neg h1, List.length_map, List.length_range]

/-- C2 amended: for equal-length input pairs, the ROC-style policy returns
at most max_points points, while the PR-style policy is only bounded by
twice max_points (verbatim prefix of up to max_points plus up to max_points
sampled or appended tail points). -/
theorem optimize_points_length_bound (fpr tpr recl prec : List ℚ) (mp : Nat)
    (hrt : tpr.length = fpr.length) (hlen : prec.length = recl.length) :
    ((optimize_roc_points fpr tpr mp).1.1).length ≤ mp ∧
    ((optimize_roc_points fpr tpr mp).1.2).length ≤ mp ∧
    ((optimize_pr_points recl prec mp).1.1).length ≤ 2 * mp ∧
    ((optimize_pr_points recl prec mp).1.2).length ≤ 2 * mp := by
  refine ⟨?_, ?_, ?_, ?_⟩
  · unfold optimize_roc_points
    split
    · simp [List.length_map, linspace_length]
    · rename_i h
      dsimp only
      omega
  · unfold optimize_roc_points
    split
    · simp [List.length_map, linspace_length]
    · rename_i h
      dsimp only
      omega
  · unfold optimize_pr_points
    dsimp only
    split
    · rename_i h
      simp only [List.length_append, List.length_map, List.length_take, linspace_length]
      omega
    · rename_i h
      simp only [List.length_drop] at h
      simp only [List.length_append, List.length_take, List.length_drop]
      omega
  · unfold optimize_pr_points
    dsimp only
    split
    · rename_i h
      simp only [List.length_append, List.length_map, List.length_take, linspace_length]
      omega
    · rename_i h
      simp only [List.length_drop] at h
      simp only [List.length_append, List.length_take, List.length_drop]
      omega

/-- Witness for the amended C2 at a concrete 4-point pair with budget 2. -/
theorem optimize_points_length_bound_witness :
    ((optimize_roc_points [0, 1, 2, 3] [9, 8, 7, 6] 2).1.1).length ≤ 2 ∧
    ((optimize_roc_points [0, 1, 2, 3] [9, 8, 7, 6] 2).1.2).length ≤ 2 ∧
    ((optimize_pr_points [0, 1, 2, 3] [9, 8, 7, 6] 2).1.1).length ≤ 2 * 2 ∧
    ((optimize_pr_points [0, 1, 2, 3] [9, 8, 7, 6] 2).1.2).length ≤ 2 * 2 :=
  optimize_points_length_bound [0, 1, 2, 3] [9, 8, 7, 6] [0, 1, 2, 3] [9, 8, 7, 6] 2 rfl rfl

/-- The x count sequence of the walk, with its starting counter in front,
never decreases: counts only ever step up by one. -/
theorem rocWalk_xs_chain (cx cy : Nat) (l : List GenomicRegion) :
    List.Chain' (· ≤ ·) (cx :: (rocWalk cx cy l).xs) := by
  induction l generalizing cx cy with
  | nil => simp [rocWalk]
  | cons r t ih =>
    by_cases h : isY r
    · simpa [rocWalk, h] using (List.chain'_cons.2 ⟨le_refl cx, ih cx (cy + 1)⟩)
    · simpa [rocWalk, h] using (List.chain'_cons.2 ⟨Nat.le_succ cx, ih (cx + 1) cy⟩)

/-- The y count sequence of the walk, with its starting counter in front,
never decreases. -/
theorem rocWalk_ys_chain (cx cy : Nat) (l : List GenomicRegion) :
    List.Chain' (· ≤ ·) (cy :: (rocWalk cx cy l).ys) := by
  induction l generalizing cx cy with
  | nil => simp [rocWalk]
  | cons r t ih =>
    by_cases h : isY r
    · simpa [rocWalk, h] using (List.chain'_cons.2 ⟨Nat.le_succ cy, ih cx (cy + 1)⟩)
    · simpa [rocWalk, h] using (List.chain'_cons.2 ⟨le_refl cy, ih (cx + 1) cy⟩)

/-- The last entry of the walk's x sequence (the starting counter when no
step was taken) is the final negative counter. -/
theorem rocWalk_xs_getLast (cx cy : Nat) (l : List GenomicRegion) :
    (cx :: (rocWalk cx cy l).xs).getLast? = some (rocWalk cx cy l).cx := by
  induction l generalizing cx cy with
  | nil => simp [rocWalk]
  | cons r t ih =>
    by_cases h : isY r
    · simpa [rocWalk, h, List.getLast?_cons_cons] using ih cx (cy + 1)
    · simpa [rocWalk, h, List.getLast?_cons_cons] using ih (cx + 1) cy

/-- The last entry of the walk's y sequence is the final positive counter. -/
theorem rocWalk_ys_getLast (cx cy : Nat) (l : List GenomicRegion) :
    (cy :: (rocWalk cx cy l).ys).getLast? = some (rocWalk cx cy l).cy := by
  induction l generalizing cx cy with
  | nil => simp [rocWalk]
  | cons r t ih =>
    by_cases h : isY r
    · simpa [rocWalk, h, List.getLast?_cons_cons] using ih cx (cy + 1)
    · simpa [rocWalk, h, List.getLast?_cons_cons] using ih (cx + 1) cy

/-- Dividing a non-decreasing count sequence by a non-negative constant
keeps it non-decreasing. -/
theorem chain_map_norm (l : List Nat) (N : Nat) (h : List.Chain' (· ≤ ·) l) :
    List.Chain' (· ≤ ·) (l.map (fun (e : Nat) => (e : ℚ) * (1 / (N : ℚ)))) := by
  rw [List.chain'_map]
  refine h.imp (fun a b hab => ?_)
  apply mul_le_mul_of_nonneg_right
  · exact_mod_cast hab
  · positivity

/-- C7: for a ranked list with at least one positive and one negative, the
normalized ROC point sequences exist (no division error), start at (0,0),
end at (1,1), and are non-decreasing in both coordinates. -/
theorem roc_points_shape (regions : List GenomicRegion)
    (hP : 1 ≤ countPos regions) (hN : 1 ≤ countNeg regions) :
    ∃ fpr tpr, rocPoints regions = .ok (fpr, tpr) ∧
      fpr.head? = some 0 ∧ tpr.head? = some 0 ∧
      fpr.getLast? = some 1 ∧ tpr.getLast? = some 1 ∧
      List.Chain' (· ≤ ·) fpr ∧ List.Chain' (· ≤ ·) tpr := by
  have hcx : (rocWalk 0 0 regions).cx = countNeg regions := by
    simpa using rocWalk_cx 0 0 regions
  have hcy : (rocWalk 0 0 regions).cy = countPos regions := by
    simpa using rocWalk_cy 0 0 regions
  have hcx0 : ¬((rocWalk 0 0 regions).cx = 0) := by omega
  have hcy0 : ¬((rocWalk 0 0 regions).cy = 0) := by omega
  refine ⟨(0 :: (rocWalk 0 0 regions).xs).map
            (fun (e : Nat) => (e : ℚ) * (1 / ((rocWalk 0 0 regions).cx : ℚ))),
          (0 :: (rocWalk 0 0 regions).ys).map
            (fun (e : Nat) => (e : ℚ) * (1 / ((rocWalk 0 0 regions).cy : ℚ))),
          ?_, ?_, ?_, ?_, ?_, ?_, ?_⟩
  · unfold rocPoints
    dsimp only
    rw [if_neg hcx0, if_neg hcy0]
  · simp
  · simp
  · rw [List.getLast?_map, rocWalk_xs_getLast]
    simp only [Option.map_some']
    rw [mul_one_div, div_self (by exact_mod_cast hcx0)]
  · rw [List.getLast?_map, rocWalk_ys_getLast]
    simp only [Option.map_some']
    rw [mul_one_div, div_self (by exact_mod_cast hcy0)]
  · exact chain_map_norm _ _ (rocWalk_xs_chain 0 0 regions)
  · exact chain_map_norm _ _ (rocWalk_ys_chain 0 0 regions)

/-- Witness for C7 at a two-region input, one positive then one negative. -/
theorem roc_points_shape_witness :
    ∃ fpr tpr, rocPoints [posR, negR] = .ok (fpr, tpr) ∧
      fpr.head? = some 0 ∧ tpr.head? = some 0 ∧
      fpr.getLast? = some 1 ∧ tpr.getLast? = some 1 ∧
      List.Chain' (· ≤ ·) fpr ∧ List.Chain' (· ≤ ·) tpr :=
  roc_points_shape [posR, negR] (by decide) (by decide)

/-- Every precision value appended by the precision-recall walk is a ratio
of counts a/b with a ≤ b and b positive. -/
theorem prcWalk_ps_mem (cx cy : Nat) (l : List GenomicRegion) (q : ℚ)
    (hq : q ∈ (prcWalk cx cy l).ps) :
    ∃ a b : Nat, a ≤ b ∧ 0 < b ∧ q = (a : ℚ) / (b : ℚ) := by
  induction l generalizing cx cy with
  | nil => simp [prcWalk] at hq
  | cons r t ih =>
    by_cases h : isY r
    · simp [prcWalk, h] at hq
      rcases hq with hq | hq
      · refine ⟨cy + 1, cx + (cy + 1), by omega, by omega, ?_⟩
        rw [hq]
        push_cast
        ring
      · exact ih _ _ hq
    · simp [prcWalk, h] at hq
      rcases hq with hq | hq
      · refine ⟨cy, cx + 1 + cy, by omega, by omega, ?_⟩
        rw [hq]
        push_cast
        ring
      · exact ih _ _ hq

/-- C8: with at least one positive in the ranked list, the
precision-recall computation succeeds, every precision value lies in [0,1],
and the appended synthetic terminal point is recall 1, precision 0. -/
theorem prc_shape (regions : List GenomicRegion) (hP : 1 ≤ countPos regions) :
    ∃ recl prec auc, precision_recall_curve regions = .ok (recl, prec, auc) ∧
      (∀ p ∈ prec, 0 ≤ p ∧ p ≤ 1) ∧
      recl.getLast? = some 1 ∧ prec.getLast? = some 0 := by
  have hcy : (prcWalk 0 0 regions).cy = countPos regions := by
    simpa using prcWalk_cy 0 0 regions
  have hcy0 : ¬((prcWalk 0 0 regions).cy = 0) := by omega
  refine ⟨((0 :: (prcWalk 0 0 regions).rcs).map
             (fun (e : Nat) => (e : ℚ) * (1 / ((prcWalk 0 0 regions).cy : ℚ)))) ++ [1],
          (0 :: (prcWalk 0 0 regions).ps) ++ [0],
          |trapz (((0 :: (prcWalk 0 0 regions).rcs).map
             (fun (e : Nat) => (e : ℚ) * (1 / ((prcWalk 0 0 regions).cy : ℚ)))) ++ [1])
            ((0 :: (prcWalk 0 0 regions).ps) ++ [0])|, ?_, ?_, ?_, ?_⟩
  · unfold precision_recall_curve
    dsimp only
    rw [if_neg hcy0]
  · intro p hp
    rcases List.mem_append.1 hp with hp | hp
    · rcases List.mem_cons.1 hp with hp | hp
      · subst hp; norm_num
      · obtain ⟨a, b, hab, hb, rfl⟩ := prcWalk_ps_mem 0 0 regions p hp
        have hb' : (0 : ℚ) < (b : ℚ) := by exact_mod_cast hb
        exact ⟨by positivity, (div_le_one hb').2 (by exact_mod_cast hab)⟩
    · rcases List.mem_singleton.1 hp with rfl
      norm_num
  · rw [List.getLast?_concat]
  · rw [List.getLast?_concat]

/-- Witness for C8 at the single-positive input. -/
theorem prc_shape_witness :
    ∃ recl prec auc, precision_recall_curve [posR] = .ok (recl, prec, auc) ∧
      (∀ p ∈ prec, 0 ≤ p ∧ p ≤ 1) ∧
      recl.getLast? = some 1 ∧ prec.getLast? = some 0 :=
  prc_shape [posR] (by decide)

/-- C1 counterexample: on a ranked list with no positive-labeled interval,
both curve builders walk the list and then propagate the raw
division-by-zero arising at rate normalization; neither raises the named
FatalInput error the spec demands. -/
theorem roc_zero_division_escapes :
    roc_curve [negR] = .error .zeroDivision ∧
    roc_curve [negR] ≠ .error .fatalInput ∧
    precision_recall_curve [negR] = .error .zeroDivision := by
  with_unfolding_all decide

/-- C1 amended: a ranked list with zero positives or zero negatives makes
roc_curve propagate the ZeroDivisionError raised after the walk at rate
normalization (never a FatalInput); precision_recall_curve does the same
when there are zero positives (with zero negatives but some positive it
divides by count_y successfully and does not fail). -/
theorem curves_propagate_zero_division (regions : List GenomicRegion) :
    ((countPos regions = 0 ∨ countNeg regions = 0) →
      roc_curve regions = .error .zeroDivision) ∧
    (countPos regions = 0 → precision_recall_curve regions = .error .zeroDivision) := by
  have hcx : (rocWalk 0 0 regions).cx = countNeg regions := by
    simpa using rocWalk_cx 0 0 regions
  have hcy : (rocWalk 0 0 regions).cy = countPos regions := by
    simpa using rocWalk_cy 0 0 regions
  have hpy : (prcWalk 0 0 regions).cy = countPos regions := by
    simpa using prcWalk_cy 0 0 regions
  constructor
  · intro h
    have hroc : rocPoints regions = .error .zeroDivision := by
      unfold rocPoints
      dsimp only
      by_cases h0 : (rocWalk 0 0 regions).cx = 0
      · rw [if_pos h0]
      · rw [if_neg h0, if_pos (by omega)]
    unfold roc_curve
    rw [hroc]
  · intro h
    unfold precision_recall_curve
    dsimp only
    rw [if_pos (by omega)]

/-- Witness for the amended C1 at the single-negative input. -/
theorem curves_propagate_zero_division_witness :
    roc_curve [negR] = .error .zeroDivision ∧
    precision_recall_curve [negR] = .error .zeroDivision :=
  ⟨(curves_propagate_zero_division [negR]).1 (Or.inl (by decide)),
   (curves_propagate_zero_division [negR]).2 (by decide)⟩

/-- Folding max over a list of copies of the start value returns the start
value. -/
theorem foldl_max_const (a : ℚ) (t : List ℚ) (h : ∀ q ∈ t, q = a) :
    t.foldl max a = a := by
  induction t with
  | nil => rfl
  | cons b s ih =>
    have hb : b = a := h b (by simp)
    subst hb
    simp only [List.foldl_cons, max_self]
    exact ih (fun q hq => h q (by simp [hq]))

/-- Folding min over a list of copies of the start value returns the start
value. -/
theorem foldl_min_const (a : ℚ) (t : List ℚ) (h : ∀ q ∈ t, q = a) :
    t.foldl min a = a := by
  induction t with
  | nil => rfl
  | cons b s ih =>
    have hb : b = a := h b (by simp)
    subst hb
    simp only [List.foldl_cons, min_self]
    exact ih (fun q hq => h q (by simp [hq]))

/-- The standardizer raises the division-by-zero on any nonempty window
whose values are all equal (stated for all-zero windows, the only
degenerate shape a normalized rate prefix can take). -/
theorem standardize_all_zero (v : List ℚ) (hne : v ≠ [])
    (h : ∀ q ∈ v, q = 0) : standardize v = .error .zeroDivision := by
  cases v with
  | nil => exact absurd rfl hne
  | cons a t =>
    have ha : a = 0 := h a (by simp)
    subst ha
    have ht : ∀ q ∈ t, q = (0 : ℚ) := fun q hq => h q (by simp [hq])
    unfold standardize
    dsimp only
    rw [foldl_max_const 0 t ht, foldl_min_const 0 t ht, if_pos rfl]

/-- A chain-wise non-decreasing list passes the boolean monotonicity test. -/
theorem nondecreasing_of_chain (l : List ℚ) (h : List.Chain' (· ≤ ·) l) :
    nondecreasing l = true := by
  induction l with
  | nil => rfl
  | cons a t ih =>
    cases t with
    | nil => rfl
    | cons b s =>
      rcases List.chain'_cons.1 h with ⟨hab, ht⟩
      simp [nondecreasing, hab, ih ht]

/-- The walk appends exactly one x entry per region. -/
theorem rocWalk_xs_length (cx cy : Nat) (l : List GenomicRegion) :
    (rocWalk cx cy l).xs.length = l.length := by
  induction l generalizing cx cy with
  | nil => simp [rocWalk]
  | cons r t ih =>
    by_cases h : isY r <;> simp [rocWalk, h, ih]

/-- C4 counterexample: on the two-region input (one positive, one negative)
the 10%-truncation window is the all-zero prefix [0, 0], standardize
divides by zero, and roc_curve surfaces that raw error to its caller —
there is no defined sentinel value and no named failure. -/
theorem roc_curve_degenerate_window_cex :
    roc_curve [posR, negR] = .error .zeroDivision := by
  with_unfolding_all decide

/-- The starting value never exceeds the running maximum of the score fold
of chip_evaluate. -/
theorem scoreFold_init_le (l : List GenomicRegion) (init : Int) :
    init ≤ l.foldl (fun m r => if r.data > m then r.data else m) init := by
  induction l generalizing init with
  | nil => exact le_refl init
  | cons a t ih =>
    simp only [List.foldl_cons]
    calc init ≤ (if a.data > init then a.data else init) := by
          split <;> omega
      _ ≤ _ := ih _

/-- Every region's score is bounded by the running maximum of the score
fold of chip_evaluate. -/
theorem scoreFold_le (l : List GenomicRegion) (init : Int) (r : GenomicRegion)
    (hr : r ∈ l) :
    r.data ≤ l.foldl (fun m x => if x.data > m then x.data else m) init := by
  induction l generalizing init with
  | nil => simp at hr
  | cons a t ih =>
    simp only [List.foldl_cons]
    rcases List.mem_cons.1 hr with rfl | hr
    · calc r.data ≤ (if r.data > init then r.data else init) := by split <;> omega
        _ ≤ _ := scoreFold_init_le t _
    · exact ih _ hr

/-- The score fold of chip_evaluate returns its starting value or a score
attained by some region of the list. -/
theorem scoreFold_attained (l : List GenomicRegion) (init : Int) :
    l.foldl (fun m r => if r.data > m then r.data else m) init = init ∨
      ∃ r ∈ l, l.foldl (fun m x => if x.data > m then x.data else m) init = r.data := by
  induction l generalizing init with
  | nil => exact Or.inl rfl
  | cons a t ih =>
    simp only [List.foldl_cons]
    by_cases h : a.data > init
    · rw [if_pos h]
      rcases ih a.data with h2 | ⟨r, hr, h2⟩
      · exact Or.inr ⟨a, by simp, h2⟩
      · exact Or.inr ⟨r, by simp [hr], h2⟩
    · rw [if_neg h]
      rcases ih init with h2 | ⟨r, hr, h2⟩
      · exact Or.inl h2
      · exact Or.inr ⟨r, by simp [hr], h2⟩

/-- C3 amended: with all ground-truth scores non-negative, boosting works
as claimed: every overlapped interval reappears with its score increased by
M = maxScorePlusOne, M strictly exceeds every original score (so every
overlapped interval outranks every non-overlapped one), and M is one plus a
score attained in the collection.  (The counterexample shows the
outranking clause fails once negative scores are allowed.) -/
theorem chip_fuse_SEG_boost (gt fp : List GenomicRegion)
    (hpos : ∀ r ∈ gt, 0 ≤ r.data) :
    (∀ r ∈ gt, isOverlapped r fp = true →
        ({ r with data := r.data + maxScorePlusOne gt } : GenomicRegion)
          ∈ chip_fuse_SEG gt fp) ∧
    (∀ r ∈ gt, ∀ s ∈ gt, isOverlapped r fp = true → isOverlapped s fp = false →
        s.data < r.data + maxScorePlusOne gt) ∧
    (∀ s ∈ gt, s.data + 1 ≤ maxScorePlusOne gt) ∧
    (gt ≠ [] → ∃ r ∈ gt, maxScorePlusOne gt = r.data + 1) := by
  refine ⟨?_, ?_, ?_, ?_⟩
  · intro r hr hov
    unfold chip_fuse_SEG
    rw [List.mem_mergeSort]
    apply List.mem_append_left
    exact List.mem_map.2 ⟨r, List.mem_filter.2 ⟨hr, hov⟩, rfl⟩
  · intro r hr s hs hrov hsov
    have h1 : s.data ≤ gt.foldl (fun m x => if x.data > m then x.data else m) (-99999999) :=
      scoreFold_le gt _ s hs
    have h2 : 0 ≤ r.data := hpos r hr
    unfold maxScorePlusOne
    omega
  · intro s hs
    have h1 : s.data ≤ gt.foldl (fun m x => if x.data > m then x.data else m) (-99999999) :=
      scoreFold_le gt _ s hs
    unfold maxScorePlusOne
    omega
  · intro hne
    rcases scoreFold_attained gt (-99999999) with h | ⟨r, hr, h⟩
    · obtain ⟨a, t, rfl⟩ := List.exists_cons_of_ne_nil hne
      have h1 : a.data ≤ (a :: t).foldl (fun m x => if x.data > m then x.data else m)
          (-99999999) := scoreFold_le _ _ a (by simp)
      have h2 : 0 ≤ a.data := hpos a (by simp)
      omega
    · exact ⟨r, hr, by unfold maxScorePlusOne; omega⟩

/-- Ground-truth region with a negative score, overlapped by the predicted
footprint fpX. -/
def gtA : GenomicRegion := ⟨"chr1", 0, 10, "a:Y", -100⟩

/-- Ground-truth region with the maximal score, not overlapped by fpX. -/
def gtB : GenomicRegion := ⟨"chr1", 100, 110, "b:N", 5⟩

/-- A predicted footprint spanning bases 5-6 of chr1. -/
def fpX : GenomicRegion := ⟨"chr1", 5, 6, "f", 0⟩

/-- C3 counterexample: with ground truth scores -100 (overlapped) and 5
(not overlapped), M is 6, and the overlapped interval's fused score
-100 + 6 = -94 is strictly below the non-overlapped interval's original
score 5 — the claimed universal outranking fails for negative scores. -/
theorem chip_fuse_SEG_negative_score_cex :
    isOverlapped gtA [fpX] = true ∧ isOverlapped gtB [fpX] = false ∧
    ({ gtA with data := gtA.data + maxScorePlusOne [gtA, gtB] } : GenomicRegion)
        ∈ chip_fuse_SEG [gtA, gtB] [fpX] ∧
    gtA.data + maxScorePlusOne [gtA, gtB] < gtB.data := by
  with_unfolding_all decide

/-- Overlapped ground-truth region with a non-negative score. -/
def gtC : GenomicRegion := ⟨"chr1", 0, 10, "c:Y", 5⟩

/-- Non-overlapped ground-truth region with a non-negative score. -/
def gtD : GenomicRegion := ⟨"chr1", 100, 110, "d:N", 3⟩

/-- Witness for the amended C3 on a non-negative-score ground truth. -/
theorem chip_fuse_SEG_boost_witness :
    ({ gtC with data := gtC.data + maxScorePlusOne [gtC, gtD] } : GenomicRegion)
        ∈ chip_fuse_SEG [gtC, gtD] [fpX] ∧
    gtD.data < gtC.data + maxScorePlusOne [gtC, gtD] ∧
    gtD.data + 1 ≤ maxScorePlusOne [gtC, gtD] ∧
    ∃ r ∈ [gtC, gtD], maxScorePlusOne [gtC, gtD] = r.data + 1 :=
  ⟨(chip_fuse_SEG_boost [gtC, gtD] [fpX] (by decide)).1 gtC (by decide) (by decide),
   (chip_fuse_SEG_boost [gtC, gtD] [fpX] (by decide)).2.1 gtC (by decide) gtD (by decide)
     (by decide) (by decide),
   (chip_fuse_SEG_boost [gtC, gtD] [fpX] (by decide)).2.2.1 gtD (by decide),
   (chip_fuse_SEG_boost [gtC, gtD] [fpX] (by decide)).2.2.2 (by decide)⟩

/-- C5 counterexample: on the input with one positive then one hundred
negatives, the 10%-window has eleven distinct x-values, yet the code's
roc_auc_1 is 1 (integral over the standardized, stretched window) while the
spec's conditional computation — standardize only when fewer than 2
distinct values — yields 1/10; the code standardizes unconditionally. -/
theorem trunc_auc_conditional_standardize_cex :
    Except.map (fun r => (r.roc_auc_1, truncAucSpecVersion r.fpr r.tpr ((1 : ℚ) / 10)))
        (roc_curve ex100)
      = .ok (1, .ok ((1 : ℚ) / 10)) ∧ ((1 : ℚ) / 10 ≠ (1 : ℚ)) := by
  with_unfolding_all decide

/-- C5 amended: the truncated AUCs returned by roc_curve are computed from
the longest prefix of the normalized x-sequence with values at most the
cutoff, and that prefix is min-max standardized unconditionally (truncAuc)
before the y-prefix is integrated over it — not only when the prefix has
fewer than 2 distinct values. -/
theorem roc_curve_trunc_auc (regions : List GenomicRegion)
    (hok : isOkE (roc_curve regions) = true) :
    ∃ r, roc_curve regions = .ok r ∧
      truncAuc r.fpr r.tpr (1 / 10) = .ok r.roc_auc_1 ∧
      truncAuc r.fpr r.tpr (1 / 100) = .ok r.roc_auc_2 := by
  cases hv : roc_curve regions with
  | error e => rw [hv] at hok; exact absurd hok (by simp [isOkE])
  | ok r =>
    refine ⟨r, rfl, ?_⟩
    unfold roc_curve at hv
    cases h1 : rocPoints regions with
    | error e => rw [h1] at hv; exact absurd hv (by simp)
    | ok p =>
      obtain ⟨fpr, tpr⟩ := p
      rw [h1] at hv
      dsimp only at hv
      cases h2 : metricsAuc fpr tpr with
      | error e => rw [h2] at hv; exact absurd hv (by simp)
      | ok auc =>
        rw [h2] at hv
        dsimp only at hv
        cases h3 : truncAuc fpr tpr (1 / 10) with
        | error e => rw [h3] at hv; exact absurd hv (by simp)
        | ok a1 =>
          rw [h3] at hv
          dsimp only at hv
          cases h4 : truncAuc fpr tpr (1 / 100) with
          | error e => rw [h4] at hv; exact absurd hv (by simp)
          | ok a2 =>
            rw [h4] at hv
            dsimp only at hv
            simp only [Except.ok.injEq] at hv
            rw [← hv]
            exact ⟨h3, h4⟩

/-- Witness for the amended C5 at the one-positive, hundred-negative
input. -/
theorem roc_curve_trunc_auc_witness :
    ∃ r, roc_curve ex100 = .ok r ∧
      truncAuc r.fpr r.tpr (1 / 10) = .ok r.roc_auc_1 ∧
      truncAuc r.fpr r.tpr (1 / 100) = .ok r.roc_auc_2 :=
  roc_curve_trunc_auc ex100 (by with_unfolding_all decide)

/-- The start value of a running-max fold over rationals never exceeds the
result. -/
theorem le_foldl_max (t : List ℚ) (a : ℚ) : a ≤ t.foldl max a := by
  induction t generalizing a with
  | nil => exact le_refl a
  | cons b s ih =>
    simp only [List.foldl_cons]
    exact le_trans (le_max_left a b) (ih (max a b))

/-- The result of a running-min fold over rationals never exceeds the start
value. -/
theorem foldl_min_le (t : List ℚ) (a : ℚ) : t.foldl min a ≤ a := by
  induction t generalizing a with
  | nil => exact le_refl a
  | cons b s ih =>
    simp only [List.foldl_cons]
    exact le_trans (ih (min a b)) (min_le_left a b)

/-- Every member of the folded list is bounded by the running-max fold. -/
theorem le_foldl_max_of_mem (t : List ℚ) (a q : ℚ) (hq : q ∈ t) :
    q ≤ t.foldl max a := by
  induction t generalizing a with
  | nil => simp at hq
  | cons b s ih =>
    simp only [List.foldl_cons]
    rcases List.mem_cons.1 hq with rfl | hq
    · exact le_trans (le_max_right a q) (le_foldl_max s (max a q))
    · exact ih (max a b) hq

/-- The running-min fold is bounded by every member of the folded list. -/
theorem foldl_min_le_of_mem (t : List ℚ) (a q : ℚ) (hq : q ∈ t) :
    t.foldl min a ≤ q := by
  induction t generalizing a with
  | nil => simp at hq
  | cons b s ih =>
    simp only [List.foldl_cons]
    rcases List.mem_cons.1 hq with rfl | hq
    · exact le_trans (foldl_min_le s (min a q)) (min_le_right a q)
    · exact ih (min a b) hq

/-- When the max fold and the min fold of standardize agree, the whole
vector is constant. -/
theorem fold_eq_all_eq (a : ℚ) (t : List ℚ)
    (h : t.foldl max a = t.foldl min a) : ∀ q ∈ a :: t, q = a := by
  intro q hq
  have hmax : a ≤ t.foldl max a := le_foldl_max t a
  have hmin : t.foldl min a ≤ a := foldl_min_le t a
  rcases List.mem_cons.1 hq with rfl | hq
  · rfl
  · have h1 : q ≤ t.foldl max a := le_foldl_max_of_mem t a q hq
    have h2 : t.foldl min a ≤ q := foldl_min_le_of_mem t a q hq
    linarith

/-- When standardize succeeds on a non-decreasing vector, the result has at
least two entries and is itself non-decreasing, so sklearn's auc accepts
it. -/
theorem standardize_chain_ok (v s : List ℚ) (h : standardize v = .ok s)
    (hv : List.Chain' (· ≤ ·) v) : 2 ≤ s.length ∧ nondecreasing s = true := by
  cases v with
  | nil => exact absurd h (by simp [standardize])
  | cons a t =>
    unfold standardize at h
    dsimp only at h
    by_cases hEq : t.foldl max a = t.foldl min a
    · rw [if_pos hEq] at h
      exact absurd h (by simp)
    · rw [if_neg hEq] at h
      simp only [Except.ok.injEq] at h
      subst h
      have ht : t ≠ [] := by
        intro hE
        subst hE
        exact hEq rfl
      have hminmax : t.foldl min a ≤ t.foldl max a :=
        le_trans (foldl_min_le t a) (le_foldl_max t a)
      have hd : 0 < t.foldl max a - t.foldl min a := by
        rcases lt_or_eq_of_le hminmax with h3 | h3
        · linarith
        · exact absurd h3.symm hEq
      constructor
      · have := List.length_pos.2 ht
        simp only [List.length_map, List.length_cons]
        omega
      · apply nondecreasing_of_chain
        rw [List.chain'_map]
        refine hv.imp (fun x y hxy => ?_)
        exact (div_le_div_iff_of_pos_right hd).2 (by linarith)

/-- sklearn's auc succeeds on a non-decreasing x-vector of at least two
entries, returning the trapezoidal integral. -/
theorem metricsAuc_ok_of (x y : List ℚ) (hlen : 2 ≤ x.length)
    (hnd : nondecreasing x = true) : metricsAuc x y = .ok (trapz y x) := by
  unfold metricsAuc
  rw [if_neg (by omega), if_pos hnd]

/-- A chain restricted to its takeWhile window stays a chain: the window is
an initial segment of the list. -/
theorem chain_takeWhile (p : ℚ → Bool) (l : List ℚ) (h : List.Chain' (· ≤ ·) l) :
    List.Chain' (· ≤ ·) (l.takeWhile p) := by
  have hpre : l.takeWhile p <+: l := List.takeWhile_prefix _
  exact List.Chain'.prefix h hpre

/-- C4 amended: whenever the normalized points exist and either truncation
window (10% or 1% cutoff) consists of all-zero x-values — equivalently,
fewer than 2 distinct values, since every window starts at 0 — or the list
simply has fewer than 100 negatives (which forces every 1%-window value to
zero), roc_curve propagates the uncaught division-by-zero raised inside
standardize; no sentinel AUC is produced and no named failure exists. -/
theorem roc_curve_degenerate_window (regions : List GenomicRegion)
    (fpr tpr : List ℚ) (hok : rocPoints regions = .ok (fpr, tpr))
    (hz : (∀ q ∈ fpr.takeWhile (fun e => e ≤ (1 : ℚ) / 10), q = 0) ∨
          (∀ q ∈ fpr.takeWhile (fun e => e ≤ (1 : ℚ) / 100), q = 0) ∨
          countNeg regions < 100) :
    roc_curve regions = .error .zeroDivision := by
  have hok0 := hok
  unfold rocPoints at hok
  dsimp only at hok
  by_cases h0 : (rocWalk 0 0 regions).cx = 0
  · rw [if_pos h0] at hok
    exact absurd hok (by simp)
  rw [if_neg h0] at hok
  by_cases h1 : (rocWalk 0 0 regions).cy = 0
  · rw [if_pos h1] at hok
    exact absurd hok (by simp)
  rw [if_neg h1] at hok
  simp only [Except.ok.injEq, Prod.mk.injEq] at hok
  obtain ⟨hf, ht⟩ := hok
  have hcx : (rocWalk 0 0 regions).cx = countNeg regions := by
    simpa using rocWalk_cx 0 0 regions
  have hreg : regions ≠ [] := by
    intro hE
    subst hE
    exact h0 rfl
  have hflen : fpr.length = regions.length + 1 := by
    rw [← hf]
    simp [List.length_map, rocWalk_xs_length]
  have hlp : 0 < regions.length := List.length_pos.2 hreg
  have hchain : List.Chain' (· ≤ ·) fpr := by
    rw [← hf]
    exact chain_map_norm _ _ (rocWalk_xs_chain 0 0 regions)
  have hauc : metricsAuc fpr tpr = .ok (trapz tpr fpr) :=
    metricsAuc_ok_of fpr tpr (by omega) (nondecreasing_of_chain fpr hchain)
  have hfr : fpr = 0 :: (rocWalk 0 0 regions).xs.map
      (fun (e : Nat) => (e : ℚ) * (1 / ((rocWalk 0 0 regions).cx : ℚ))) := by
    rw [← hf, List.map_cons, Nat.cast_zero, zero_mul]
  have hw10 : fpr.takeWhile (fun e => e ≤ (1 : ℚ) / 10)
      = 0 :: ((rocWalk 0 0 regions).xs.map
          (fun (e : Nat) => (e : ℚ) * (1 / ((rocWalk 0 0 regions).cx : ℚ)))).takeWhile
            (fun e => e ≤ (1 : ℚ) / 10) := by
    rw [hfr, List.takeWhile_cons, if_pos (by norm_num)]
  have hw01ne : fpr.takeWhile (fun e => e ≤ (1 : ℚ) / 100) ≠ [] := by
    rw [hfr, List.takeWhile_cons, if_pos (by norm_num)]
    exact List.cons_ne_nil _ _
  have hz2 : (∀ q ∈ fpr.takeWhile (fun e => e ≤ (1 : ℚ) / 10), q = 0) ∨
      (∀ q ∈ fpr.takeWhile (fun e => e ≤ (1 : ℚ) / 100), q = 0) := by
    rcases hz with h | h | hN
    · exact Or.inl h
    · exact Or.inr h
    · right
      intro q hq
      have hqf : q ∈ fpr := by
        have hpre : fpr.takeWhile (fun e => e ≤ (1 : ℚ) / 100) <+: fpr :=
          List.takeWhile_prefix _
        exact hpre.subset hq
      have hqle : q ≤ 1 / 100 := by
        simpa using List.mem_takeWhile_imp hq
      rw [← hf] at hqf
      obtain ⟨e, he, rfl⟩ := List.mem_map.1 hqf
      have hcx9 : (rocWalk 0 0 regions).cx ≤ 99 := by omega
      have hcxq : (0 : ℚ) < ((rocWalk 0 0 regions).cx : ℚ) := by
        exact_mod_cast Nat.pos_of_ne_zero h0
      have he0 : e = 0 := by
        by_contra heno
        have he1 : (1 : ℚ) ≤ (e : ℚ) := by
          exact_mod_cast Nat.one_le_iff_ne_zero.2 heno
        have hstep : (1 : ℚ) / ((rocWalk 0 0 regions).cx : ℚ)
            ≤ (e : ℚ) * (1 / ((rocWalk 0 0 regions).cx : ℚ)) :=
          le_mul_of_one_le_left (by positivity) he1
        have hgt : (1 : ℚ) / 100 < 1 / ((rocWalk 0 0 regions).cx : ℚ) :=
          one_div_lt_one_div_of_lt hcxq (by exact_mod_cast Nat.lt_of_le_of_lt hcx9 (by norm_num))
        linarith
      rw [he0, Nat.cast_zero, zero_mul]
  rcases hz2 with hA | hB
  · have htr : truncAuc fpr tpr (1 / 10) = .error .zeroDivision := by
      unfold truncAuc
      dsimp only
      rw [standardize_all_zero _ (by rw [hw10]; exact List.cons_ne_nil _ _) hA]
    unfold roc_curve
    rw [hok0]
    dsimp only
    rw [hauc]
    dsimp only
    rw [htr]
  · have htr01 : truncAuc fpr tpr (1 / 100) = .error .zeroDivision := by
      unfold truncAuc
      dsimp only
      rw [standardize_all_zero _ hw01ne hB]
    by_cases hA : ∀ q ∈ fpr.takeWhile (fun e => e ≤ (1 : ℚ) / 10), q = 0
    · have htr : truncAuc fpr tpr (1 / 10) = .error .zeroDivision := by
        unfold truncAuc
        dsimp only
        rw [standardize_all_zero _ (by rw [hw10]; exact List.cons_ne_nil _ _) hA]
      unfold roc_curve
      rw [hok0]
      dsimp only
      rw [hauc]
      dsimp only
      rw [htr]
    · obtain ⟨s, hs⟩ : ∃ s, standardize (fpr.takeWhile (fun e => e ≤ (1 : ℚ) / 10)) = .ok s := by
        cases hstd : standardize (fpr.takeWhile (fun e => e ≤ (1 : ℚ) / 10)) with
        | ok s => exact ⟨s, rfl⟩
        | error e =>
          exfalso
          rw [hw10] at hstd
          unfold standardize at hstd
          dsimp only at hstd
          by_cases hEq : (((rocWalk 0 0 regions).xs.map
              (fun (e : Nat) => (e : ℚ) * (1 / ((rocWalk 0 0 regions).cx : ℚ)))).takeWhile
                (fun e => e ≤ (1 : ℚ) / 10)).foldl max 0
              = (((rocWalk 0 0 regions).xs.map
              (fun (e : Nat) => (e : ℚ) * (1 / ((rocWalk 0 0 regions).cx : ℚ)))).takeWhile
                (fun e => e ≤ (1 : ℚ) / 10)).foldl min 0
          · exact hA (by rw [hw10]; exact fold_eq_all_eq 0 _ hEq)
          · rw [if_neg hEq] at hstd
            exact absurd hstd (by simp)
      obtain ⟨hslen, hsnd⟩ := standardize_chain_ok _ _ hs (chain_takeWhile _ _ hchain)
      have htr10 : truncAuc fpr tpr (1 / 10)
          = .ok (trapz (tpr.take (fpr.takeWhile (fun e => e ≤ (1 : ℚ) / 10)).length) s) := by
        unfold truncAuc
        dsimp only
        rw [hs]
        exact metricsAuc_ok_of _ _ hslen hsnd
      unfold roc_curve
      rw [hok0]
      dsimp only
      rw [hauc]
      dsimp only
      rw [htr10]
      dsimp only
      rw [htr01]

/-- One positive followed by ten negatives: the 10%-window [0, 0, 1/10] is
non-degenerate, but ten negatives are fewer than one hundred, so the
1%-window is the all-zero prefix [0, 0] and standardize divides by zero. -/
def ex10 : List GenomicRegion := posR :: List.replicate 10 negR

/-- Witness for the amended C4 in the contested regime (between 10 and 99
negatives): the error arises at the 1%-window stage even though the
10%-window standardizes fine. -/
theorem roc_curve_degenerate_window_witness :
    roc_curve ex10 = .error .zeroDivision :=
  roc_curve_degenerate_window ex10
    [0, 0, 1/10, 2/10, 3/10, 4/10, 5/10, 6/10, 7/10, 8/10, 9/10, 1]
    [0, 1, 1, 1, 1, 1, 1, 1, 1, 1, 1, 1]
    (by with_unfolding_all decide)
    (Or.inr (Or.inr (by decide)))
